import Mathlib

/-!
Shallow embedding of the go-vpack binary serialization library.

The library drives a single traversal function per type in two modes:
writing (serialize) and reading (deserialize), over a shared `Buffer`.
Bytes are modelled as `Nat` values below 256, byte slices as `List Nat`,
Go `int`/`int64` as `Int` (all Go arithmetic here stays within 64 bits),
Go `uint64` as `Nat` (< 2^64 by the Go type).  A Go runtime panic
(out-of-range index, out-of-range slice expression, `make` with negative
size) is modelled by `Option`: `none` means the Go code panics.
-/

set_option maxRecDepth 4000

/-- The Buffer from buffer.go: a byte slice with a read position, a sticky
error flag and a mode.  `Writing = true` models `Mode == Serialize`,
`Writing = false` models `Mode == Deserialize`. -/
structure Buffer where
  Data : List Nat
  Pos : Nat
  Error : Bool
  Writing : Bool
deriving DecidableEq, Repr

/-- NewReader prepares a Buffer for deserializing from the backing bytes. -/
def NewReader (data : List Nat) : Buffer :=
  { Data := data, Pos := 0, Error := false, Writing := false }

/-- NewWriter prepares a Buffer for serializing into. -/
def NewWriter : Buffer :=
  { Data := [], Pos := 0, Error := false, Writing := true }

/-- ReadingDone reports whether the read cursor has reached the end. -/
def Buffer.ReadingDone (b : Buffer) : Bool :=
  b.Pos ≥ b.Data.length

/-- WriteBytes appends bytes to the buffer. -/
def WriteBytes (b : Buffer) (newData : List Nat) : Buffer :=
  { b with Data := b.Data ++ newData }

/-- ReadByte implements io.ByteReader: returns the next byte and advances the
cursor, or signals EOF (`none`) at or past the end of the data. -/
def ReadByte (b : Buffer) : Option Nat × Buffer :=
  if b.Pos ≥ b.Data.length then (none, b)
  else (some (b.Data.getD b.Pos 0), { b with Pos := b.Pos + 1 })

/-- ReadBytes from buffer.go.  `n` is a Go `int`, so it can be negative when
it comes from decoded data.  If fewer than `n` bytes remain it returns the
remaining bytes padded with zeros to length `n`, moves the cursor to the end
and sets the sticky error flag.  The Go code slices `b.Data[b.Pos:]` in the
unhappy case and `b.Data[start:end]` in the happy case; either slice
expression panics (`none`) when the cursor is past the end of the data or
when `n` is negative (end < start). -/
def ReadBytes (b : Buffer) (n : Int) : Option (List Nat × Buffer) :=
  let length := b.Data.length
  if (b.Pos : Int) + n > (length : Int) then
    if b.Pos > length then none
    else
      let remaining := b.Data.drop b.Pos
      some (remaining ++ List.replicate (n.toNat - remaining.length) 0,
            { b with Pos := length, Error := true })
  else
    if n < 0 then none
    else some ((b.Data.drop b.Pos).take n.toNat, { b with Pos := b.Pos + n.toNat })

/-- PackFn is the generic serialization function type (bytes.go).  The Go
version mutates `data` through a pointer; here the possibly-updated value is
returned together with the updated buffer.  `none` models a panic. -/
def PackFn (T : Type) : Type :=
  T → Buffer → Option (T × Buffer)

/-- appendUvarintAux is the loop of Go binary.AppendUvarint, with fuel
bounding the number of iterations so the recursion is structural; any fuel
with `x < 128^fuel` is enough to reach the final byte. -/
def appendUvarintAux : Nat → Nat → List Nat
  | 0, x => [x]
  | fuel + 1, x =>
    if x < 128 then [x]
    else (x % 128 + 128) :: appendUvarintAux fuel (x / 128)

/-- appendUvarint models Go binary.AppendUvarint: little-endian groups of 7
bits, most significant bit of each byte as continuation flag.  In the loop
Go appends `byte(x)|0x80` (which equals `x%128 + 128`) while `x >= 0x80`,
then the final byte `byte(x)`.  A uint64 value needs at most 10 groups
(128^10 = 2^70 > 2^64), so fuel 10 never runs out for Go inputs. -/
def appendUvarint (x : Nat) : List Nat :=
  appendUvarintAux 10 x

/-- toUint64 models the Go conversion uint64(x) for an int64 value. -/
def toUint64 (n : Int) : Nat :=
  (n % ((2 : Int) ^ 64)).toNat

/-- zigzag models the mapping in Go binary.AppendVarint:
`ux := uint64(x) << 1; if x < 0 { ux = ^ux }`. -/
def zigzag (n : Int) : Nat :=
  let ux := (toUint64 n * 2) % 2 ^ 64
  if n < 0 then 2 ^ 64 - 1 - ux else ux

/-- appendVarint models Go binary.AppendVarint: zigzag then uvarint. -/
def appendVarint (n : Int) : List Nat :=
  appendUvarint (zigzag n)

/-- readUvarintLoop models the loop of Go binary.ReadUvarint with fuel
counting the remaining iterations (10 at the start; the iteration with
`fuel = f + 1` is Go's `i = 10 - (f+1)`, so `i == MaxVarintLen64-1` is
`f = 0`).  The boolean result is the error flag (EOF or overflow).  All
uint64 arithmetic is reduced modulo 2^64. -/
def readUvarintLoop : Nat → Nat → Nat → Buffer → Nat × Bool × Buffer
  | 0, x, _, buf => (x, true, buf)
  | fuel + 1, x, s, buf =>
    match ReadByte buf with
    | (none, buf1) => (x, true, buf1)
    | (some b, buf1) =>
      if b < 128 then
        if fuel = 0 ∧ b > 1 then (x, true, buf1)
        else ((x ||| (b <<< s)) % 2 ^ 64, false, buf1)
      else
        readUvarintLoop fuel ((x ||| ((b % 128) <<< s)) % 2 ^ 64) (s + 7) buf1

/-- ReadUvarint models Go binary.ReadUvarint reading from the Buffer. -/
def ReadUvarint (buf : Buffer) : Nat × Bool × Buffer :=
  readUvarintLoop 10 0 0 buf

/-- ReadVarint models Go binary.ReadVarint: read a uvarint `ux`, then
`x := int64(ux >> 1); if ux&1 != 0 { x = ^x }`.  Since `ux >> 1 < 2^63`,
the int64 conversion is the identity, and `^x = -x - 1`. -/
def ReadVarint (buf : Buffer) : Int × Bool × Buffer :=
  let r := ReadUvarint buf
  let x : Int := (r.1 >>> 1 : Nat)
  (if r.1 % 2 ≠ 0 then -x - 1 else x, r.2.1, r.2.2)

/-- VInt64 from primitives.go: varint encoding for int64.  On read, the
value returned by ReadVarint is assigned even when it reports an error, and
the error sets the buffer's sticky flag. -/
def VInt64 : PackFn Int := fun n buf =>
  if buf.Writing then
    some (n, { buf with Data := buf.Data ++ appendVarint n })
  else
    let r := ReadVarint buf
    some (r.1, if r.2.1 then { r.2.2 with Error := true } else r.2.2)

/-- VUInt64 from primitives.go: varint encoding for uint64. -/
def VUInt64 : PackFn Nat := fun n buf =>
  if buf.Writing then
    some (n, { buf with Data := buf.Data ++ appendUvarint n })
  else
    let r := ReadUvarint buf
    some (r.1, if r.2.1 then { r.2.2 with Error := true } else r.2.2)

/-- IntPack models `Int` from primitives.go (named IntPack here because
`Int` is taken in Lean): varint encoding for Go int, via int64; the
int <-> int64 conversions are the identity on 64-bit targets. -/
def IntPack : PackFn Int := fun n buf => VInt64 n buf

/-- BytePack models `Byte` from primitives.go: a single byte.  On read it
takes `buf.ReadBytes(1)[0]`; the returned slice always has length 1. -/
def BytePack : PackFn Nat := fun b buf =>
  if buf.Writing then some (b, WriteBytes buf [b])
  else
    match ReadBytes buf 1 with
    | none => none
    | some (slice, buf1) => some (slice.headD 0, buf1)

/-- BoolPack models `Bool` from primitives.go: writes 0 or 1 via Byte, and
on read any nonzero byte decodes to true. -/
def BoolPack : PackFn Bool := fun b buf =>
  let bt : Nat := if b then 1 else 0
  match BytePack bt buf with
  | none => none
  | some (bt1, buf1) => some (bt1 != 0, buf1)

/-- beBytes4 is the 4-byte big-endian representation appended by Go
binary.BigEndian.AppendUint32 (the argument is a uint32, so < 2^32). -/
def beBytes4 (n : Nat) : List Nat :=
  [n / 2 ^ 24 % 256, n / 2 ^ 16 % 256, n / 2 ^ 8 % 256, n % 256]

/-- beUint32 models Go binary.BigEndian.Uint32: it indexes b[0]..b[3] of the
slice and panics (`none`) when the slice is shorter than 4 bytes. -/
def beUint32 (l : List Nat) : Option Nat :=
  match l with
  | b0 :: b1 :: b2 :: b3 :: _ =>
    some (b0 * 2 ^ 24 + b1 * 2 ^ 16 + b2 * 2 ^ 8 + b3)
  | _ => none

/-- FUInt32 from primitives.go: fixed size serialization of uint32 in big
endian.  Note the source reads only 2 bytes (`buf.ReadBytes(2)`) before
calling BigEndian.Uint32 on the returned slice. -/
def FUInt32 : PackFn Nat := fun n buf =>
  if buf.Writing then some (n, WriteBytes buf (beBytes4 n))
  else
    match ReadBytes buf 2 with
    | none => none
    | some (slice, buf1) =>
      match beUint32 slice with
      | none => none
      | some v => some (v, buf1)

/-- StringPack models `String` from composite.go (named StringPack because
`String` is taken in Lean): writes the length as a varint, then the raw
bytes.  In write mode, `EnsureSpace(size)` followed by `copy` of the whole
string over the fresh tail appends exactly the string's bytes.  In read
mode the decoded length feeds `ReadBytes`, and can be negative. -/
def StringPack : PackFn (List Nat) := fun s buf =>
  let size : Int := s.length
  match IntPack size buf with
  | none => none
  | some (size1, buf1) =>
    if buf1.Writing then
      some (s, { buf1 with Data := buf1.Data ++ s })
    else
      match ReadBytes buf1 size1 with
      | none => none
      | some (bytes, buf2) => some (bytes, buf2)

/-- StringZ from composite.go: null-byte terminated string.  Writing
appends the bytes then a 0 terminator.  Reading scans from the cursor while
`end < len(Data) && Data[end] != 0`, takes the scanned span as the string
and sets `Pos = end + 1` (which is `len(Data) + 1` when no terminator is
found).  The slice expression `Data[start:end]` panics when the cursor is
already past the end of the data. -/
def StringZ : PackFn (List Nat) := fun s buf =>
  if buf.Writing then
    some (s, { buf with Data := buf.Data ++ s ++ [0] })
  else
    if buf.Pos > buf.Data.length then none
    else
      let tw := (buf.Data.drop buf.Pos).takeWhile (fun b => b != 0)
      some (tw, { buf with Pos := buf.Pos + tw.length + 1 })

/-- runSeq applies the element pack function to each list element in order,
threading the buffer (the loop body of `Slice`). -/
def runSeq {T : Type} (fn : PackFn T) : List T → Buffer → Option (List T × Buffer)
  | [], buf => some ([], buf)
  | t :: ts, buf =>
    match fn t buf with
    | none => none
    | some (t1, buf1) =>
      match runSeq fn ts buf1 with
      | none => none
      | some (ts1, buf2) => some (t1 :: ts1, buf2)

/-- Slice from composite.go: length as varint, then each element in order.
In read mode `make([]T, size)` allocates `size` zero-valued elements
(`dflt` stands for the Go zero value of T) and panics for negative size. -/
def Slice {T : Type} (dflt : T) (fn : PackFn T) : PackFn (List T) := fun list buf =>
  let size : Int := list.length
  match IntPack size buf with
  | none => none
  | some (size1, buf1) =>
    if buf1.Writing then runSeq fn list buf1
    else if size1 < 0 then none
    else runSeq fn (List.replicate size1.toNat dflt) buf1

/-- Go time.Time is modelled as the instant in unix milliseconds (location
data is not modelled; none of the packers below depends on it). -/
abbrev GoTime : Type := Int

/-- UnixTime from composite.go: seconds-resolution varint timestamp.
Writing takes `t.Unix()` (the floor of milliseconds / 1000 for a normalized
time.Time); reading produces `time.Unix(seconds, 0)`. -/
def UnixTime : PackFn GoTime := fun t buf =>
  let seconds : Int := if buf.Writing then Int.fdiv t 1000 else 0
  match VInt64 seconds buf with
  | none => none
  | some (seconds1, buf1) =>
    some (if buf.Writing then t else seconds1 * 1000, buf1)

/-- Versioned from composite.go: writes `len(fns)` as the version tag and
dispatches on it.  The source only guards `version <= len(fns)`; for a
decoded version below 1 the index expression `fns[version-1]` is out of
range and panics (`none`). -/
def Versioned {T : Type} (fns : List (PackFn T)) : PackFn T := fun item buf =>
  let version : Int := fns.length
  match IntPack version buf with
  | none => none
  | some (v, buf1) =>
    if v ≤ (fns.length : Int) then
      if v < 1 then none
      else
        match fns.get? (v - 1).toNat with
        | some fn => fn item buf1
        | none => none
    else
      some (item, { buf1 with Error := true })

/-- ToBytes from bytes.go: run the traversal on a fresh write buffer and
return the accumulated bytes, or nil (`some none`) when the error flag was
set.  The outer `none` propagates a panic of the traversal. -/
def ToBytes {T : Type} (obj : T) (fn : PackFn T) : Option (Option (List Nat)) :=
  match fn obj NewWriter with
  | none => none
  | some (_, buf) => some (if buf.Error then none else some buf.Data)

/-- FromBytesInto from bytes.go: run the traversal on a fresh read buffer
over `data`, filling `obj`; the boolean result is `!buf.Error`. -/
def FromBytesInto {T : Type} (data : List Nat) (obj : T) (fn : PackFn T) :
    Option (Bool × T) :=
  match fn obj (NewReader data) with
  | none => none
  | some (obj1, buf) => some (!buf.Error, obj1)

/-- FromBytes from bytes.go: allocate a zero value (`dflt` stands for the
Go zero value of T), delegate to FromBytesInto, and return the populated
object or nil (`some none`) on failure. -/
def FromBytes {T : Type} (dflt : T) (data : List Nat) (fn : PackFn T) :
    Option (Option T) :=
  match FromBytesInto data dflt fn with
  | none => none
  | some (ok, obj) => some (if ok then some obj else none)

/-- The inner record of the test scenario (struct Other in the test). -/
structure Other where
  I1 : Int
  S1 : List Nat
deriving DecidableEq, Repr

/-- The outer record of the test scenario (struct Something in the test). -/
structure Something where
  I1 : Int
  I2 : Int
  S1 : List Nat
  S2 : List Nat
  O1 : List Other
  B1 : Bool
  T1 : GoTime
deriving DecidableEq, Repr

/-- PackOther from the test: Int then String, in order. -/
def PackOther : PackFn Other := fun self buf => do
  let (i1, buf) ← IntPack self.I1 buf
  let (s1, buf) ← StringPack self.S1 buf
  some ({ I1 := i1, S1 := s1 }, buf)

/-- PackSomething from the test: Int, Int, String, StringZ, Slice of
PackOther, Bool, UnixTime, in order. -/
def PackSomething : PackFn Something := fun self buf => do
  let (i1, buf) ← IntPack self.I1 buf
  let (i2, buf) ← IntPack self.I2 buf
  let (s1, buf) ← StringPack self.S1 buf
  let (s2, buf) ← StringZ self.S2 buf
  let (o1, buf) ← Slice { I1 := 0, S1 := [] } PackOther self.O1 buf
  let (b1, buf) ← BoolPack self.B1 buf
  let (t1, buf) ← UnixTime self.T1 buf
  some ({ I1 := i1, I2 := i2, S1 := s1, S2 := s2, O1 := o1, B1 := b1, T1 := t1 }, buf)

/-- The concrete record of the test scenario: i1 = 100, i2 = 43222,
s1 = "Hello", s2 = "World", two sub-records, flag true, and the timestamp
time.UnixMilli(2342000), i.e. 2342 whole seconds. -/
def obj1 : Something :=
  { I1 := 100, I2 := 43222
    S1 := [72, 101, 108, 108, 111]
    S2 := [87, 111, 114, 108, 100]
    O1 := [{ I1 := 10, S1 := [] }, { I1 := 0, S1 := [107] }]
    B1 := true
    T1 := (2342000 : Int) }

/-- The Go zero value of Something. -/
def zeroSomething : Something :=
  { I1 := 0, I2 := 0, S1 := [], S2 := [], O1 := [], B1 := false, T1 := (0 : Int) }

/-- The traversal of the trailing-bytes counterexample: StringZ, String,
StringZ in order, over a triple of strings. -/
def PackTriple : PackFn (List Nat × List Nat × List Nat) := fun self buf => do
  let (a, buf) ← StringZ self.1 buf
  let (b, buf) ← StringPack self.2.1 buf
  let (c, buf) ← StringZ self.2.2 buf
  some ((a, b, c), buf)

/-- ReadStable captures the codecs whose read mode is insensitive to bytes
appended after the input, as long as the read completes without error and
leaves the cursor within the data: running on `d ++ e` from the same
position produces the same value and the same cursor. -/
def ReadStable {T : Type} (fn : PackFn T) : Prop :=
  ∀ (d : List Nat) (p : Nat) (t t' : T) (p' : Nat),
    fn t { Data := d, Pos := p, Error := false, Writing := false } =
      some (t', { Data := d, Pos := p', Error := false, Writing := false }) →
    p' ≤ d.length →
    ∀ e : List Nat,
      fn t { Data := d ++ e, Pos := p, Error := false, Writing := false } =
        some (t', { Data := d ++ e, Pos := p', Error := false, Writing := false })

/-- The bytes produced by ToBytes on the concrete test record. -/
def c1Bytes : List Nat :=
  [200, 1, 172, 163, 5, 10, 72, 101, 108, 108, 111, 87, 111, 114, 108, 100, 0,
   4, 20, 0, 0, 2, 107, 1, 204, 36]

/-- C1: encoding the concrete test record with PackSomething (Int, Int,
String, StringZ, Slice of PackOther, Bool, UnixTime) succeeds, and decoding
the produced bytes with FromBytes over the same traversal reproduces every
field exactly (the timestamp, 2342000 ms = 2342 whole seconds, has no
sub-second part to discard). -/
theorem c1_concrete_roundtrip :
    ToBytes obj1 PackSomething = some (some c1Bytes) ∧
    FromBytes zeroSomething c1Bytes PackSomething = some (some obj1) := by
  constructor <;> decide

/-- C4: FUInt32 writes exactly the 4 big-endian bytes of the value, but in
read mode it reads only 2 bytes and then BigEndian.Uint32 indexes past the
returned 2-byte slice, which panics; it never restores the value nor
advances the cursor by 4. -/
theorem c4_fuint32_read_width_bug :
    FUInt32 1 NewWriter =
      some (1, { Data := [0, 0, 0, 1], Pos := 0, Error := false, Writing := true }) ∧
    FUInt32 0 (NewReader [0, 0, 0, 1]) = none := by
  constructor <;> decide

/-- C2 counterexample: the StringZ encoding of "World" is the 5 bytes plus
a 0 terminator; decoding the strict prefix of length 4 with FromBytesInto
reports success and yields "Worl", a silently wrong value. -/
theorem c2_counterexample_stringz_truncation :
    ToBytes ([87, 111, 114, 108, 100] : List Nat) StringZ =
      some (some [87, 111, 114, 108, 100, 0]) ∧
    FromBytesInto [87, 111, 114, 108] ([] : List Nat) StringZ =
      some (true, [87, 111, 114, 108]) ∧
    ([87, 111, 114, 108] : List Nat) ≠ [87, 111, 114, 108, 100] := by
  refine ⟨by decide, by decide, by decide⟩

/-- C3 counterexample: the single malformed byte 0x01 decodes as varint
length -1, and the String codec then calls ReadBytes(-1), whose slice
expression `b.Data[start:end]` has end < start: FromBytesInto panics
instead of completing with the error flag. -/
theorem c3_counterexample_string_negative_length :
    FromBytesInto [1] ([] : List Nat) StringPack = none := by
  decide

/-- C5 counterexample: with one version function, the malformed input 0x00
decodes version tag 0; the source only checks `version <= len(fns)` and
then evaluates `fns[version-1]` = `fns[-1]`, an out-of-range index (panic):
the error flag is not set and no graceful failure happens. -/
theorem c5_counterexample_version_zero :
    FromBytesInto [0] true (Versioned [BoolPack]) = none := by
  decide

/-- C8 counterexample: decoding StringZ from the 1-byte buffer [65], which
has no 0 terminator, completes with the cursor at 2, strictly greater than
the length of the backing byte sequence. -/
theorem c8_counterexample_stringz_cursor_overshoot :
    StringZ [] (NewReader [65]) =
      some ([65], { Data := [65], Pos := 2, Error := false, Writing := false }) ∧
    ([65] : List Nat).length < 2 := by
  refine ⟨by decide, by decide⟩

/-- C10 counterexample: PackTriple (StringZ, String, StringZ) on the value
("a\x00\x08", "", "b") produces a valid encoding whose decode succeeds with
the cursor one past the end (an embedded zero misaligns the String length
read, and the final StringZ scan hits end-of-buffer); appending the extra
byte 99 still reports success but populates a different object, so trailing
bytes are not ignored. -/
theorem c10_counterexample_trailing_bytes_change_decode :
    ToBytes (([97, 0, 8], [], [98]) : List Nat × List Nat × List Nat) PackTriple =
      some (some [97, 0, 8, 0, 0, 98, 0]) ∧
    FromBytesInto [97, 0, 8, 0, 0, 98, 0]
        (([], [], []) : List Nat × List Nat × List Nat) PackTriple =
      some (true, ([97], [0, 0, 98, 0], [])) ∧
    FromBytesInto ([97, 0, 8, 0, 0, 98, 0] ++ [99])
        (([], [], []) : List Nat × List Nat × List Nat) PackTriple =
      some (true, ([97], [0, 0, 98, 0], [99])) ∧
    (([97], [0, 0, 98, 0], []) : List Nat × List Nat × List Nat) ≠
      ([97], [0, 0, 98, 0], [99]) := by
  refine ⟨by decide, by decide, by decide, by decide⟩

lemma drop_eq_cons_getD {d : List Nat} {p c : Nat} {t : List Nat}
    (h : d.drop p = c :: t) : d.getD p 0 = c := by
  have h0 : d[p]? = some c := by
    have := List.getElem?_drop d p 0
    rw [h] at this
    simpa using this.symm
  simp [List.getD_eq_getElem?_getD, h0]

lemma drop_eq_cons_succ {d : List Nat} {p c : Nat} {t : List Nat}
    (h : d.drop p = c :: t) : d.drop (p + 1) = t := by
  have : d.drop (p + 1) = (d.drop p).drop 1 := by
    rw [List.drop_drop]
  rw [this, h]
  rfl

lemma drop_eq_cons_lt {d : List Nat} {p c : Nat} {t : List Nat}
    (h : d.drop p = c :: t) : p < d.length := by
  by_contra hc
  rw [List.drop_eq_nil_of_le (by omega)] at h
  exact List.noConfusion h

lemma ReadByte_cons {b : Buffer} {c : Nat} {t : List Nat}
    (h : b.Data.drop b.Pos = c :: t) :
    ReadByte b = (some c, { b with Pos := b.Pos + 1 }) := by
  have hlt := drop_eq_cons_lt h
  unfold ReadByte
  rw [if_neg (by omega), drop_eq_cons_getD h]

lemma ReadByte_end {b : Buffer} (h : b.Data.drop b.Pos = []) :
    ReadByte b = (none, b) := by
  have hge : b.Data.length ≤ b.Pos := by
    by_contra hc
    have := List.drop_eq_nil_iff.mp h
    omega
  unfold ReadByte
  rw [if_pos (by omega)]

lemma or_shift {x m s : Nat} (hx : x < 2 ^ s) : x ||| m <<< s = x + m * 2 ^ s := by
  rw [Nat.shiftLeft_eq, Nat.or_comm, mul_comm m (2 ^ s),
    ← Nat.mul_add_lt_is_or hx, mul_comm]
  omega

lemma lor_even {a b : Nat} (ha : a % 2 = 0) (hb : b % 2 = 0) :
    (a ||| b) % 2 = 0 := by
  by_contra h
  have h1 : (a ||| b) % 2 = 1 := by omega
  rcases Nat.or_mod_two_eq_one.mp h1 with h2 | h2 <;> omega

lemma chunk_sum_bound {f s x u : Nat} (hf1 : 1 ≤ f) (hf10 : f ≤ 10)
    (hs : s = 7 * (10 - f)) (hx : x < 2 ^ s) (hu : u < 128 ^ (f - 1) * 2) :
    x + u * 2 ^ s < 2 ^ 64 := by
  have h128 : (128 : Nat) ^ (f - 1) = 2 ^ (7 * (f - 1)) := by
    rw [show (128 : Nat) = 2 ^ 7 by norm_num, ← pow_mul]
  have key : (2 : Nat) ^ (7 * (f - 1)) * 2 * 2 ^ s = 2 ^ 64 := by
    rw [hs, ← pow_succ, ← pow_add]
    congr 1
    omega
  have hmono : (u + 1) * 2 ^ s ≤ 128 ^ (f - 1) * 2 * 2 ^ s :=
    Nat.mul_le_mul_right _ (by omega)
  rw [h128, key] at hmono
  have hsp : 0 < 2 ^ s := Nat.pos_pow_of_pos s (by omega)
  nlinarith [hmono, hx, hsp]

lemma readUvarintLoop_ok :
    ∀ (f u x s : Nat) (d : List Nat) (p : Nat) (e w : Bool) (rest : List Nat),
    d.drop p = appendUvarintAux f u ++ rest →
    1 ≤ f → f ≤ 10 →
    u < 128 ^ (f - 1) * 2 →
    s = 7 * (10 - f) →
    x < 2 ^ s →
    readUvarintLoop f x s ⟨d, p, e, w⟩ =
      (x + u * 2 ^ s, false, ⟨d, p + (appendUvarintAux f u).length, e, w⟩) := by
  intro f
  induction f with
  | zero => intro u x s d p e w rest _ h1; omega
  | succ f ih =>
    intro u x s d p e w rest hdrop _ hf10 hu hs hx
    by_cases hu128 : u < 128
    · have henc : appendUvarintAux (f + 1) u = [u] := by
        simp [appendUvarintAux, hu128]
      rw [henc] at hdrop
      have hrb := ReadByte_cons (b := ⟨d, p, e, w⟩) (c := u) (t := rest) (by simpa using hdrop)
      have hcond : ¬(f = 0 ∧ u > 1) := by
        rintro ⟨hf0, hugt⟩
        subst hf0
        simp at hu
        omega
      have hbound : x + u * 2 ^ s < 2 ^ 64 :=
        chunk_sum_bound (f := f + 1) (by omega) hf10 hs hx (by simpa using hu)
      rw [readUvarintLoop, hrb]
      simp only [hu128, if_pos, hcond, if_false, if_neg hcond]
      rw [or_shift hx, Nat.mod_eq_of_lt hbound]
      simp [henc]
    · have hf1 : 1 ≤ f := by
        by_contra hf0
        have : f = 0 := by omega
        subst this
        simp at hu
        omega
      have henc : appendUvarintAux (f + 1) u =
          (u % 128 + 128) :: appendUvarintAux f (u / 128) := by
        rw [appendUvarintAux, if_neg hu128]
      rw [henc] at hdrop
      have hdrop2 : d.drop p = (u % 128 + 128) :: (appendUvarintAux f (u / 128) ++ rest) := by
        simpa using hdrop
      have hrb := ReadByte_cons (b := ⟨d, p, e, w⟩) (c := u % 128 + 128)
        (t := appendUvarintAux f (u / 128) ++ rest) (by simpa using hdrop2)
      have hblt : ¬(u % 128 + 128 < 128) := by omega
      have hmod : (u % 128 + 128) % 128 = u % 128 := by omega
      have hs7 : s + 7 ≤ 64 := by omega
      have hx7 : x + u % 128 * 2 ^ s < 2 ^ (s + 7) := by
        have h127 : u % 128 ≤ 127 := by omega
        have : x + u % 128 * 2 ^ s < 128 * 2 ^ s := by nlinarith [hx, h127]
        calc x + u % 128 * 2 ^ s < 128 * 2 ^ s := this
          _ = 2 ^ (s + 7) := by rw [pow_add]; ring
      have hxmod : (x ||| (u % 128) <<< s) % 2 ^ 64 = x + u % 128 * 2 ^ s := by
        rw [or_shift hx]
        exact Nat.mod_eq_of_lt (lt_of_lt_of_le hx7 (Nat.pow_le_pow_right (by omega) hs7))
      have hudiv : u / 128 < 128 ^ (f - 1) * 2 := by
        have hp : (128 : Nat) ^ f = 128 * 128 ^ (f - 1) := by
          conv_lhs => rw [show f = 1 + (f - 1) by omega]
          rw [pow_add, pow_one]
        apply Nat.div_lt_of_lt_mul
        calc u < 128 ^ (f + 1 - 1) * 2 := hu
          _ = 128 * (128 ^ (f - 1) * 2) := by rw [Nat.add_sub_cancel, hp]; ring
      have hdropnext : d.drop (p + 1) = appendUvarintAux f (u / 128) ++ rest :=
        drop_eq_cons_succ hdrop2
      have ihr := ih (u / 128) (x + u % 128 * 2 ^ s) (s + 7) d (p + 1) e w rest
        hdropnext hf1 (by omega) hudiv (by omega) hx7
      rw [readUvarintLoop, hrb]
      simp only [if_neg hblt, hmod, hxmod]
      rw [ihr]
      have hval : x + u % 128 * 2 ^ s + u / 128 * 2 ^ (s + 7) = x + u * 2 ^ s := by
        have h1 : (2 : Nat) ^ (s + 7) = 2 ^ s * 128 := by rw [pow_add]; ring
        have h2 : u % 128 + 128 * (u / 128) = u := Nat.mod_add_div u 128
        rw [h1]
        nlinarith [h2]
      have hlen : (appendUvarintAux (f + 1) u).length =
          (appendUvarintAux f (u / 128)).length + 1 := by
        rw [henc]
        rfl
      have hpos : p + 1 + (appendUvarintAux f (u / 128)).length =
          p + ((appendUvarintAux f (u / 128)).length + 1) := by omega
      rw [hval, hlen, hpos]

lemma ReadUvarint_ok {u : Nat} (hu : u < 2 ^ 64) (d : List Nat) (p : Nat)
    (e w : Bool) (rest : List Nat) (hdrop : d.drop p = appendUvarint u ++ rest) :
    ReadUvarint ⟨d, p, e, w⟩ =
      (u, false, ⟨d, p + (appendUvarint u).length, e, w⟩) := by
  have h2 : u < 128 ^ (10 - 1) * 2 := by
    have : (128 : Nat) ^ (10 - 1) * 2 = 2 ^ 64 := by norm_num
    omega
  have := readUvarintLoop_ok 10 u 0 0 d p e w rest (by simpa [appendUvarint] using hdrop)
    (by omega) (by omega) h2 (by norm_num) (by norm_num)
  simpa [ReadUvarint, appendUvarint] using this

lemma zigzag_of_nonneg {n : Int} (h0 : 0 ≤ n) (h63 : n < 2 ^ 63) :
    zigzag n = 2 * n.toNat := by
  unfold zigzag toUint64
  rw [if_neg (by omega)]
  have e64i : (2 : Int) ^ 64 = 18446744073709551616 := by norm_num
  have e64n : (2 : Nat) ^ 64 = 18446744073709551616 := by norm_num
  have e63i : (2 : Int) ^ 63 = 9223372036854775808 := by norm_num
  rw [e64i] at *
  rw [e64n] at *
  rw [e63i] at h63
  omega

lemma zigzag_of_neg {n : Int} (hn : n < 0) (h63 : -(2 ^ 63) ≤ n) :
    zigzag n = 2 * (-n).toNat - 1 := by
  unfold zigzag toUint64
  rw [if_pos hn]
  have e64i : (2 : Int) ^ 64 = 18446744073709551616 := by norm_num
  have e64n : (2 : Nat) ^ 64 = 18446744073709551616 := by norm_num
  have e63i : (2 : Int) ^ 63 = 9223372036854775808 := by norm_num
  rw [e64i] at *
  rw [e64n] at *
  rw [e63i] at h63
  omega

lemma zigzag_lt {n : Int} (h1 : -(2 ^ 63) ≤ n) (h2 : n < 2 ^ 63) :
    zigzag n < 2 ^ 64 := by
  by_cases hn : n < 0
  · rw [zigzag_of_neg hn h1]
    have e63i : (2 : Int) ^ 63 = 9223372036854775808 := by norm_num
    rw [e63i] at h1
    have e64n : (2 : Nat) ^ 64 = 18446744073709551616 := by norm_num
    omega
  · rw [zigzag_of_nonneg (by omega) h2]
    have e63i : (2 : Int) ^ 63 = 9223372036854775808 := by norm_num
    rw [e63i] at h2
    have e64n : (2 : Nat) ^ 64 = 18446744073709551616 := by norm_num
    omega

lemma zigzag_decode {n : Int} (h1 : -(2 ^ 63) ≤ n) (h2 : n < 2 ^ 63) :
    (if zigzag n % 2 ≠ 0 then -((zigzag n >>> 1 : Nat) : Int) - 1
     else ((zigzag n >>> 1 : Nat) : Int)) = n := by
  have hdiv : ∀ z : Nat, z >>> 1 = z / 2 := fun z => Nat.shiftRight_eq_div_pow z 1
  by_cases hn : n < 0
  · rw [zigzag_of_neg hn h1]
    have hm : 1 ≤ (-n).toNat := by omega
    rw [if_pos (by omega), hdiv]
    have : (2 * (-n).toNat - 1) / 2 = (-n).toNat - 1 := by omega
    rw [this]
    omega
  · rw [zigzag_of_nonneg (by omega) h2]
    rw [if_neg (by omega), hdiv]
    have : 2 * n.toNat / 2 = n.toNat := by omega
    rw [this]
    omega

lemma VInt64_read_enc (m : Int) {n : Int} (h1 : -(2 ^ 63) ≤ n) (h2 : n < 2 ^ 63)
    (d : List Nat) (p : Nat) (e : Bool) (rest : List Nat)
    (hdrop : d.drop p = appendVarint n ++ rest) :
    VInt64 m ⟨d, p, e, false⟩ =
      some (n, ⟨d, p + (appendVarint n).length, e, false⟩) := by
  have hru := ReadUvarint_ok (zigzag_lt h1 h2) d p e false rest
    (by simpa [appendVarint] using hdrop)
  unfold VInt64
  rw [if_neg (by simp)]
  unfold ReadVarint
  rw [hru]
  simp only []
  rw [show (appendVarint n).length = (appendUvarint (zigzag n)).length by rw [appendVarint]]
  simp
  have hz := zigzag_decode h1 h2
  by_cases hpar : zigzag n % 2 = 1
  · rw [if_pos hpar]
    rw [if_pos (by omega)] at hz
    exact_mod_cast hz
  · rw [if_neg hpar]
    rw [if_neg (by omega)] at hz
    exact_mod_cast hz

lemma VUInt64_read_enc (m : Nat) {u : Nat} (hu : u < 2 ^ 64)
    (d : List Nat) (p : Nat) (e : Bool) (rest : List Nat)
    (hdrop : d.drop p = appendUvarint u ++ rest) :
    VUInt64 m ⟨d, p, e, false⟩ =
      some (u, ⟨d, p + (appendUvarint u).length, e, false⟩) := by
  have hru := ReadUvarint_ok hu d p e false rest hdrop
  unfold VUInt64
  rw [if_neg (by simp)]
  rw [hru]
  simp

lemma appendUvarintAux_length_le :
    ∀ (f k u : Nat), 1 ≤ k → u < 128 ^ k → (appendUvarintAux f u).length ≤ k := by
  intro f
  induction f with
  | zero => intro k u hk _; simpa [appendUvarintAux] using hk
  | succ f ih =>
    intro k u hk hu
    by_cases h128 : u < 128
    · simpa [appendUvarintAux, h128] using hk
    · have hk2 : 2 ≤ k := by
        by_contra hc
        have : k = 1 := by omega
        subst this
        simp at hu
        omega
      have hdiv : u / 128 < 128 ^ (k - 1) := by
        apply Nat.div_lt_of_lt_mul
        calc u < 128 ^ k := hu
          _ = 128 * 128 ^ (k - 1) := by
            conv_lhs => rw [show k = 1 + (k - 1) by omega]
            rw [pow_add, pow_one]
      have := ih (k - 1) (u / 128) (by omega) hdiv
      rw [appendUvarintAux, if_neg h128]
      simp only [List.length_cons]
      omega

lemma appendUvarintAux_shape :
    ∀ (f u : Nat), u < 128 ^ f →
    ∃ init bl, appendUvarintAux f u = init ++ [bl] ∧
      (∀ b ∈ init, 128 ≤ b ∧ b < 256) ∧ bl < 128 := by
  intro f
  induction f with
  | zero =>
    intro u hu
    have : u = 0 := by simpa using hu
    subst this
    exact ⟨[], 0, rfl, by simp, by omega⟩
  | succ f ih =>
    intro u hu
    by_cases h128 : u < 128
    · exact ⟨[], u, by simp [appendUvarintAux, h128], by simp, h128⟩
    · have hdiv : u / 128 < 128 ^ f := by
        apply Nat.div_lt_of_lt_mul
        calc u < 128 ^ (f + 1) := hu
          _ = 128 * 128 ^ f := by rw [pow_succ]; ring
      obtain ⟨init, bl, heq, hinit, hbl⟩ := ih (u / 128) hdiv
      refine ⟨(u % 128 + 128) :: init, bl, ?_, ?_, hbl⟩
      · rw [appendUvarintAux, if_neg h128, heq]
        rfl
      · intro b hb
        rcases List.mem_cons.mp hb with rfl | hb
        · omega
        · exact hinit b hb

lemma appendUvarintAux_ofDigits :
    ∀ (f u : Nat), u < 128 ^ f →
    Nat.ofDigits 128 ((appendUvarintAux f u).map (· % 128)) = u := by
  intro f
  induction f with
  | zero =>
    intro u hu
    have : u = 0 := by simpa using hu
    subst this
    simp [appendUvarintAux, Nat.ofDigits]
  | succ f ih =>
    intro u hu
    by_cases h128 : u < 128
    · simp [appendUvarintAux, h128, Nat.ofDigits]
    · have hdiv : u / 128 < 128 ^ f := by
        apply Nat.div_lt_of_lt_mul
        calc u < 128 ^ (f + 1) := hu
          _ = 128 * 128 ^ f := by rw [pow_succ]; ring
      rw [appendUvarintAux, if_neg h128]
      simp only [List.map_cons, Nat.ofDigits_cons, ih (u / 128) hdiv]
      have : (u % 128 + 128) % 128 = u % 128 := by omega
      rw [this]
      omega

/-- C6: varint codec correctness.  For every int64 value, writing with
VInt64 produces exactly the LEB128 grouping of the zigzag-mapped value
(7 data bits per byte, continuation bit on all but the final byte, and the
7-bit groups reassemble to the zigzag value), the encoding has minimal
length among LEB128 encodings (at most k bytes whenever the value fits in
k 7-bit groups), and reading it back with VInt64 restores the value exactly
with the cursor past the encoding; likewise for every uint64 value with
VUInt64.  The boundary values 0, -1, 1, the 64-bit extremes and the 7-bit
group boundaries are instances of these universal statements. -/
theorem c6_varint_roundtrip_minimal :
    (∀ n : Int, -(2 ^ 63) ≤ n → n < 2 ^ 63 →
      ToBytes n VInt64 = some (some (appendVarint n)) ∧
      VInt64 0 (NewReader (appendVarint n)) =
        some (n, { Data := appendVarint n, Pos := (appendVarint n).length,
                   Error := false, Writing := false }) ∧
      appendVarint n = appendUvarint (zigzag n) ∧
      (∃ init bl, appendVarint n = init ++ [bl] ∧
        (∀ b ∈ init, 128 ≤ b ∧ b < 256) ∧ bl < 128) ∧
      Nat.ofDigits 128 ((appendVarint n).map (· % 128)) = zigzag n ∧
      (∀ k, 1 ≤ k → zigzag n < 128 ^ k → (appendVarint n).length ≤ k)) ∧
    (∀ u : Nat, u < 2 ^ 64 →
      ToBytes u VUInt64 = some (some (appendUvarint u)) ∧
      VUInt64 0 (NewReader (appendUvarint u)) =
        some (u, { Data := appendUvarint u, Pos := (appendUvarint u).length,
                   Error := false, Writing := false }) ∧
      (∃ init bl, appendUvarint u = init ++ [bl] ∧
        (∀ b ∈ init, 128 ≤ b ∧ b < 256) ∧ bl < 128) ∧
      Nat.ofDigits 128 ((appendUvarint u).map (· % 128)) = u ∧
      (∀ k, 1 ≤ k → u < 128 ^ k → (appendUvarint u).length ≤ k)) := by
  have h2_64 : ∀ v : Nat, v < 2 ^ 64 → v < 128 ^ 10 := by
    intro v hv
    have : (2 : Nat) ^ 64 ≤ 128 ^ 10 := by norm_num
    omega
  constructor
  · intro n hlo hhi
    have hz := zigzag_lt hlo hhi
    refine ⟨?_, ?_, rfl, ?_, ?_, ?_⟩
    · simp [ToBytes, VInt64, NewWriter]
    · have := VInt64_read_enc 0 hlo hhi (appendVarint n) 0 false []
        (by simp)
      simpa [NewReader] using this
    · simpa [appendVarint, appendUvarint] using
        appendUvarintAux_shape 10 (zigzag n) (h2_64 _ hz)
    · simpa [appendVarint, appendUvarint] using
        appendUvarintAux_ofDigits 10 (zigzag n) (h2_64 _ hz)
    · intro k hk hzk
      simpa [appendVarint, appendUvarint] using
        appendUvarintAux_length_le 10 k (zigzag n) hk hzk
  · intro u hu
    refine ⟨?_, ?_, ?_, ?_, ?_⟩
    · simp [ToBytes, VUInt64, NewWriter]
    · have := VUInt64_read_enc 0 hu (appendUvarint u) 0 false [] (by simp)
      simpa [NewReader] using this
    · simpa [appendUvarint] using appendUvarintAux_shape 10 u (h2_64 _ hu)
    · simpa [appendUvarint] using appendUvarintAux_ofDigits 10 u (h2_64 _ hu)
    · intro k hk huk
      simpa [appendUvarint] using appendUvarintAux_length_le 10 k u hk huk

/-- Witness for C6 at the boundary values -1 (signed) and 128 (unsigned):
round trips through the buffer hold at these concrete inputs. -/
theorem c6_witness :
    ToBytes (-1 : Int) VInt64 = some (some (appendVarint (-1))) ∧
    VInt64 0 (NewReader (appendVarint (-1))) =
      some (-1, { Data := appendVarint (-1), Pos := (appendVarint (-1)).length,
                  Error := false, Writing := false }) ∧
    ToBytes (128 : Nat) VUInt64 = some (some (appendUvarint 128)) ∧
    VUInt64 0 (NewReader (appendUvarint 128)) =
      some (128, { Data := appendUvarint 128, Pos := (appendUvarint 128).length,
                   Error := false, Writing := false }) := by
  have hs := c6_varint_roundtrip_minimal.1 (-1) (by norm_num) (by norm_num)
  have hu := c6_varint_roundtrip_minimal.2 128 (by norm_num)
  exact ⟨hs.1, hs.2.1, hu.1, hu.2.1⟩

lemma readUvarintLoop_trunc :
    ∀ (f u k x s : Nat) (d : List Nat) (p : Nat) (e w : Bool),
    d.drop p = (appendUvarintAux f u).take k →
    k < (appendUvarintAux f u).length →
    k < f →
    p ≤ d.length →
    ∃ X, readUvarintLoop f x s ⟨d, p, e, w⟩ = (X, true, ⟨d, d.length, e, w⟩) ∧
      ((x % 2 = 0 ∧ (s = 0 → u % 2 = 0)) → X % 2 = 0) := by
  intro f
  induction f with
  | zero => intro u k x s d p e w _ _ hkf; omega
  | succ f ih =>
    intro u k x s d p e w hdrop hklen hkf hple
    match k with
    | 0 =>
      have hend : d.drop p = [] := by simpa using hdrop
      have hlen : d.length - p = 0 := by
        have := congrArg List.length hend
        simpa using this
      have hpl : p = d.length := by omega
      refine ⟨x, ?_, fun hpar => hpar.1⟩
      rw [readUvarintLoop, ReadByte_end hend, hpl]
    | k' + 1 =>
      by_cases h128 : u < 128
      · exfalso
        rw [appendUvarintAux, if_pos h128] at hklen
        simp at hklen
      · have henc : appendUvarintAux (f + 1) u =
            (u % 128 + 128) :: appendUvarintAux f (u / 128) := by
          rw [appendUvarintAux, if_neg h128]
        rw [henc] at hdrop hklen
        have hdrop2 : d.drop p =
            (u % 128 + 128) :: (appendUvarintAux f (u / 128)).take k' := by
          simpa [List.take_cons] using hdrop
        have hrb := ReadByte_cons (b := ⟨d, p, e, w⟩) (c := u % 128 + 128)
          (t := (appendUvarintAux f (u / 128)).take k') (by simpa using hdrop2)
        have hblt : ¬(u % 128 + 128 < 128) := by omega
        have hplt : p < d.length := drop_eq_cons_lt hdrop2
        have hklen2 : k' < (appendUvarintAux f (u / 128)).length := by
          simp at hklen
          omega
        obtain ⟨X, hX, hXpar⟩ := ih (u / 128) k'
          ((x ||| ((u % 128 + 128) % 128) <<< s) % 2 ^ 64) (s + 7) d (p + 1) e w
          (drop_eq_cons_succ hdrop2) hklen2 (by omega) (by omega)
        refine ⟨X, ?_, ?_⟩
        · rw [readUvarintLoop, hrb]
          simp only [if_neg hblt]
          exact hX
        · rintro ⟨hx2, hs0⟩
          apply hXpar
          refine ⟨?_, by omega⟩
          have hmod : (u % 128 + 128) % 128 = u % 128 := by omega
          rw [hmod]
          have hy : (u % 128) <<< s % 2 = 0 := by
            match s with
            | 0 =>
              rw [Nat.shiftLeft_zero]
              have := hs0 rfl
              omega
            | s' + 1 =>
              rw [Nat.shiftLeft_eq, Nat.mul_mod, Nat.pow_mod]
              simp
          have := lor_even hx2 hy
          have h2d : (2 : Nat) ∣ 2 ^ 64 := dvd_pow_self 2 (by omega)
          rw [Nat.mod_mod_of_dvd _ h2d]
          exact this

lemma VInt64_read_trunc (mI : Int) {u : Nat} (hu64 : u < 2 ^ 64) {k : Nat}
    (hk : k < (appendUvarint u).length) :
    ∃ sz : Int,
      VInt64 mI (NewReader ((appendUvarint u).take k)) =
        some (sz, ⟨(appendUvarint u).take k, k, true, false⟩) ∧
      (u % 2 = 0 → 0 ≤ sz) := by
  have hu10 : u < 128 ^ 10 := by
    have : (2 : Nat) ^ 64 ≤ 128 ^ 10 := by norm_num
    omega
  have henclen : (appendUvarint u).length ≤ 10 := by
    simpa [appendUvarint] using appendUvarintAux_length_le 10 10 u (by omega) hu10
  have hdlen : ((appendUvarint u).take k).length = k := by
    simp [List.length_take]
    omega
  obtain ⟨X, hX, hXpar⟩ := readUvarintLoop_trunc 10 u k 0 0
    ((appendUvarint u).take k) 0 false false
    (by simp [appendUvarint]) (by simpa [appendUvarint] using hk)
    (by omega) (by omega)
  refine ⟨if X % 2 ≠ 0 then -((X >>> 1 : Nat) : Int) - 1 else ((X >>> 1 : Nat) : Int),
    ?_, ?_⟩
  · unfold VInt64
    rw [if_neg (by simp [NewReader])]
    unfold ReadVarint ReadUvarint
    rw [show NewReader ((appendUvarint u).take k) =
      (⟨(appendUvarint u).take k, 0, false, false⟩ : Buffer) from rfl, hX]
    simp [hdlen]
  · intro hu2
    have hXeven : X % 2 = 0 := hXpar ⟨by omega, fun _ => hu2⟩
    rw [if_neg (by omega)]
    positivity

lemma ReadBytes_at_end_err {d : List Nat} {w : Bool} (sz : Int) (hsz : 0 ≤ sz) :
    ∃ bs, ReadBytes ⟨d, d.length, true, w⟩ sz = some (bs, ⟨d, d.length, true, w⟩) := by
  unfold ReadBytes
  by_cases h : ((d.length : Int) + sz > (d.length : Int))
  · rw [if_pos (by simpa using h)]
    rw [if_neg (by simp)]
    exact ⟨_, rfl⟩
  · rw [if_neg (by simpa using h)]
    have hz : sz = 0 := by omega
    subst hz
    rw [if_neg (by omega)]
    refine ⟨(d.drop d.length).take ((0 : Int)).toNat, ?_⟩
    simp

lemma ReadBytes_underflow {d : List Nat} {p : Nat} {e w : Bool} {n : Int}
    (h1 : (p : Int) + n > (d.length : Int)) (h2 : p ≤ d.length) :
    ReadBytes ⟨d, p, e, w⟩ n =
      some (d.drop p ++ List.replicate (n.toNat - (d.drop p).length) 0,
        ⟨d, d.length, true, w⟩) := by
  simp only [ReadBytes]
  rw [if_pos (by simpa using h1), if_neg (by simpa using h2)]

lemma ReadBytes_ok {d : List Nat} {p : Nat} {e w : Bool} {n : Int}
    (h0 : 0 ≤ n) (h1 : (p : Int) + n ≤ (d.length : Int)) :
    ReadBytes ⟨d, p, e, w⟩ n =
      some ((d.drop p).take n.toNat, ⟨d, p + n.toNat, e, w⟩) := by
  simp only [ReadBytes]
  rw [if_neg (by simpa using not_lt.mpr h1), if_neg (by omega)]

/-- C2 amended: truncation detection holds for the varint Int codec, the
length-prefixed String codec and the Bool codec: decoding any strictly
shorter prefix of an encoding produced by ToBytes reports failure (success
flag false).  It does not hold for StringZ, which treats end-of-buffer like
a terminator (see the counterexample). -/
theorem c2_amended_truncation_detection :
    (∀ n : Int, -(2 ^ 63) ≤ n → n < 2 ^ 63 →
      ∀ enc, ToBytes n IntPack = some (some enc) →
      ∀ k, k < enc.length →
        (FromBytesInto (enc.take k) 0 IntPack).map Prod.fst = some false) ∧
    (∀ s : List Nat, (s.length : Int) < 2 ^ 63 →
      ∀ enc, ToBytes s StringPack = some (some enc) →
      ∀ k, k < enc.length →
        (FromBytesInto (enc.take k) [] StringPack).map Prod.fst = some false) ∧
    (∀ b : Bool, ∀ enc, ToBytes b BoolPack = some (some enc) →
      ∀ k, k < enc.length →
        (FromBytesInto (enc.take k) false BoolPack).map Prod.fst = some false) := by
  refine ⟨?_, ?_, ?_⟩
  · intro n h1 h2 enc henc k hk
    have hTB : ToBytes n IntPack = some (some (appendVarint n)) := by
      simp [ToBytes, IntPack, VInt64, NewWriter]
    have henc2 : enc = appendVarint n := by
      have := hTB.symm.trans henc
      simpa using this.symm
    subst henc2
    obtain ⟨sz, hszeq, _⟩ := VInt64_read_trunc 0 (zigzag_lt h1 h2)
      (k := k) (by simpa [appendVarint] using hk)
    unfold FromBytesInto
    have : IntPack 0 (NewReader ((appendVarint n).take k)) =
        some (sz, ⟨(appendVarint n).take k, k, true, false⟩) := by
      simpa [IntPack, appendVarint] using hszeq
    rw [this]
    simp
  · intro s hs enc henc k hk
    set L : Int := (s.length : Int) with hL
    have hTB : ToBytes s StringPack = some (some (appendVarint L ++ s)) := by
      simp [ToBytes, StringPack, IntPack, VInt64, NewWriter, hL]
    have henc2 : enc = appendVarint L ++ s := by
      have := hTB.symm.trans henc
      simpa using this.symm
    subst henc2
    set m : Nat := (appendVarint L).length with hm
    by_cases hkm : k < m
    · -- truncation inside the length varint
      have hdk : (appendVarint L ++ s).take k = (appendVarint L).take k :=
        List.take_append_of_le_length (by omega)
      have hzev : zigzag L % 2 = 0 := by
        rw [zigzag_of_nonneg (by omega) (by omega)]
        omega
      obtain ⟨sz, hszeq, hsznn⟩ := VInt64_read_trunc 0
        (zigzag_lt (n := L) (by omega) (by omega))
        (k := k) (by simpa [appendVarint] using hkm)
      have hsz0 : 0 ≤ sz := hsznn hzev
      have hdlen : ((appendVarint L).take k).length = k := by
        simp [List.length_take]
        omega
      obtain ⟨bs, hrb⟩ := ReadBytes_at_end_err (d := (appendVarint L).take k)
        (w := false) sz hsz0
      unfold FromBytesInto StringPack
      rw [hdk]
      have hip : IntPack ((List.nil : List Nat).length : Int)
          (NewReader ((appendVarint L).take k)) =
          some (sz, ⟨(appendVarint L).take k, k, true, false⟩) := by
        simpa [IntPack, appendVarint] using hszeq
      simp only [List.length_nil, Nat.cast_zero] at hip ⊢
      rw [hip]
      simp only [Bool.false_eq_true, if_false]
      rw [show (⟨(appendVarint L).take k, k, true, false⟩ : Buffer) =
        ⟨(appendVarint L).take k, ((appendVarint L).take k).length, true, false⟩ by
          rw [hdlen]]
      rw [hrb]
      simp
    · -- truncation inside the raw bytes
      have hkml : m ≤ k := by omega
      have hdk : (appendVarint L ++ s).take k =
          appendVarint L ++ s.take (k - m) := by
        rw [List.take_append_eq_append_take, List.take_of_length_le (by omega)]
      have hklen : k < m + s.length := by
        have := hk
        simpa [List.length_append, hm] using this
      have hslen : (s.take (k - m)).length = k - m := by
        simp [List.length_take]
        omega
      have hip := VInt64_read_enc 0 (n := L) (by omega) (by omega)
        (appendVarint L ++ s.take (k - m)) 0 false (s.take (k - m)) (by simp)
      unfold FromBytesInto StringPack
      rw [hdk]
      simp only [List.length_nil, Nat.cast_zero]
      have hip2 : IntPack 0 (NewReader (appendVarint L ++ s.take (k - m))) =
          some (L, ⟨appendVarint L ++ s.take (k - m), m, false, false⟩) := by
        simpa [IntPack, NewReader, hm] using hip
      rw [hip2]
      simp only [Bool.false_eq_true, if_false]
      have hdl : (appendVarint L ++ s.take (k - m)).length = k := by
        simp [List.length_append, hslen, hm]
        omega
      have hrb := ReadBytes_underflow (d := appendVarint L ++ s.take (k - m))
        (p := m) (e := false) (w := false) (n := L)
        (by rw [hdl]; push_cast [hL]; omega) (by omega)
      rw [hrb]
      simp
  · intro b enc henc k hk
    cases b with
    | false =>
      have h0 : ToBytes false BoolPack = some (some [0]) := by decide
      have henc2 : enc = [0] := by
        have := h0.symm.trans henc
        simpa using this.symm
      subst henc2
      have hk0 : k = 0 := by
        simp at hk
        omega
      subst hk0
      decide
    | true =>
      have h0 : ToBytes true BoolPack = some (some [1]) := by decide
      have henc2 : enc = [1] := by
        have := h0.symm.trans henc
        simpa using this.symm
      subst henc2
      have hk0 : k = 0 := by
        simp at hk
        omega
      subst hk0
      decide

/-- Witness for C2 amended at concrete inputs: truncating the varint
encoding of 300, the String encoding of "k" and the Bool encoding of true
each makes decoding report failure. -/
theorem c2_witness :
    (FromBytesInto (([216, 4] : List Nat).take 1) 0 IntPack).map Prod.fst = some false ∧
    (FromBytesInto (([2, 107] : List Nat).take 1) [] StringPack).map Prod.fst = some false ∧
    (FromBytesInto (([1] : List Nat).take 0) false BoolPack).map Prod.fst = some false := by
  refine ⟨c2_amended_truncation_detection.1 300 (by norm_num) (by norm_num)
      [216, 4] (by decide) 1 (by decide),
    c2_amended_truncation_detection.2.1 [107] (by norm_num)
      [2, 107] (by decide) 1 (by decide),
    c2_amended_truncation_detection.2.2 true [1] (by decide) 0 (by decide)⟩

lemma takeWhile_append_all {s : List Nat} (h : ∀ b ∈ s, b ≠ 0) :
    (s ++ [0]).takeWhile (fun b => b != 0) = s := by
  induction s with
  | nil => simp [List.takeWhile]
  | cons a t ih =>
    have ha : a ≠ 0 := h a (by simp)
    simp only [List.cons_append, List.takeWhile_cons]
    rw [if_pos (by simpa using ha)]
    rw [ih (fun b hb => h b (by simp [hb]))]

lemma takeWhile_append_stop {s : List Nat} (h : 0 ∈ s) :
    (s ++ [0]).takeWhile (fun b => b != 0) = s.takeWhile (fun b => b != 0) := by
  induction s with
  | nil => simp at h
  | cons a t ih =>
    by_cases ha : a = 0
    · subst ha
      simp [List.takeWhile_cons]
    · have ht : 0 ∈ t := by
        rcases List.mem_cons.mp h with h0 | h0
        · omega
        · exact h0
      simp only [List.cons_append, List.takeWhile_cons]
      rw [if_pos (by simpa using ha), if_pos (by simpa using ha), ih ht]

/-- C7: StringZ boundary behaviour.  Writing any string appends its bytes
plus a 0 terminator.  For a string with no zero byte, decoding the encoding
with StringZ restores the string exactly, with the cursor advanced past the
terminator; for a string with an embedded zero byte, decoding completes
normally (no crash) and yields the prefix of the string up to, and
excluding, its first zero byte. -/
theorem c7_stringz_boundary :
    ∀ s : List Nat,
      ToBytes s StringZ = some (some (s ++ [0])) ∧
      ((∀ b ∈ s, b ≠ 0) →
        FromBytes [] (s ++ [0]) StringZ = some (some s) ∧
        StringZ [] (NewReader (s ++ [0])) =
          some (s, { Data := s ++ [0], Pos := s.length + 1,
                     Error := false, Writing := false })) ∧
      (0 ∈ s →
        FromBytes [] (s ++ [0]) StringZ =
          some (some (s.takeWhile (fun b => b != 0)))) := by
  intro s
  refine ⟨by simp [ToBytes, StringZ, NewWriter], ?_, ?_⟩
  · intro h
    have htw := takeWhile_append_all h
    have hsz : StringZ [] (NewReader (s ++ [0])) =
        some (s, { Data := s ++ [0], Pos := s.length + 1,
                   Error := false, Writing := false }) := by
      unfold StringZ
      rw [if_neg (by simp [NewReader]), if_neg (by simp [NewReader])]
      simp [NewReader, htw]
    refine ⟨?_, hsz⟩
    unfold FromBytes FromBytesInto
    rw [hsz]
    simp
  · intro h
    have htw := takeWhile_append_stop h
    unfold FromBytes FromBytesInto StringZ
    rw [if_neg (by simp [NewReader]), if_neg (by simp [NewReader])]
    simp [NewReader, htw]

/-- Witness for C7 at "World" (no zero byte) and "a\x00b" (embedded zero):
the first round-trips exactly, the second decodes to "a". -/
theorem c7_witness :
    FromBytes [] ([87, 111, 114, 108, 100] ++ [0]) StringZ =
      some (some [87, 111, 114, 108, 100]) ∧
    FromBytes [] ([97, 0, 98] ++ [0]) StringZ = some (some [97]) := by
  refine ⟨((c7_stringz_boundary [87, 111, 114, 108, 100]).2.1 (by decide)).1, ?_⟩
  have := (c7_stringz_boundary [97, 0, 98]).2.2 (by decide)
  simpa using this

/-- C8 amended: the read cursor starts at 0 and is monotone non-decreasing
under every buffer operation; ReadByte and ReadBytes keep it within the
length of the backing bytes, but a StringZ decode can leave it at length+1
(when the scan reaches end-of-buffer without a terminator, Pos = end+1
exceeds the length by one; see the counterexample). -/
theorem c8_amended_cursor_invariant :
    (∀ d : List Nat, (NewReader d).Pos = 0) ∧
    (∀ (b : Buffer) (ob : Option Nat) (buf2 : Buffer), ReadByte b = (ob, buf2) →
      b.Pos ≤ buf2.Pos ∧ (b.Pos ≤ b.Data.length → buf2.Pos ≤ b.Data.length)) ∧
    (∀ (b : Buffer) (n : Int) (l : List Nat) (buf2 : Buffer),
      ReadBytes b n = some (l, buf2) →
      b.Pos ≤ buf2.Pos ∧ buf2.Pos ≤ b.Data.length) ∧
    (∀ (b : Buffer) (s s1 : List Nat) (buf2 : Buffer), b.Writing = false →
      StringZ s b = some (s1, buf2) →
      b.Pos ≤ buf2.Pos ∧ buf2.Pos ≤ b.Data.length + 1) := by
  refine ⟨fun d => rfl, ?_, ?_, ?_⟩
  · intro b ob buf2 h
    unfold ReadByte at h
    by_cases hc : b.Pos ≥ b.Data.length
    · rw [if_pos hc] at h
      cases h
      exact ⟨le_refl _, fun hb => hb⟩
    · rw [if_neg hc] at h
      cases h
      refine ⟨by simp, fun _ => ?_⟩
      simp only []
      omega
  · intro b n l buf2 h
    simp only [ReadBytes] at h
    by_cases h1 : ((b.Pos : Int) + n > (b.Data.length : Int))
    · rw [if_pos h1] at h
      by_cases h2 : b.Pos > b.Data.length
      · rw [if_pos h2] at h
        exact absurd h (by simp)
      · rw [if_neg h2] at h
        cases h
        constructor <;> simp only [] <;> omega
    · rw [if_neg h1] at h
      by_cases h3 : n < 0
      · rw [if_pos h3] at h
        exact absurd h (by simp)
      · rw [if_neg h3] at h
        cases h
        constructor <;> simp only [] <;> omega
  · intro b s s1 buf2 hw h
    unfold StringZ at h
    rw [hw] at h
    simp only [Bool.false_eq_true, if_false] at h
    by_cases hp : b.Pos > b.Data.length
    · rw [if_pos hp] at h
      exact absurd h (by simp)
    · rw [if_neg hp] at h
      cases h
      have htw := (List.takeWhile_sublist (fun b0 => b0 != 0)
        (l := b.Data.drop b.Pos)).length_le
      have hdl : (b.Data.drop b.Pos).length = b.Data.length - b.Pos := by simp
      constructor <;> simp only [] <;> omega

/-- Witness for C8 amended at concrete instances: ReadByte and ReadBytes on
a one-byte reader keep the cursor within bounds, and StringZ on a reader
with a terminator stays within length+1. -/
theorem c8_witness :
    ((NewReader [5]).Pos ≤ (⟨[5], 1, false, false⟩ : Buffer).Pos ∧
      ((NewReader [5]).Pos ≤ (NewReader [5]).Data.length →
        (⟨[5], 1, false, false⟩ : Buffer).Pos ≤ (NewReader [5]).Data.length)) ∧
    ((NewReader [5]).Pos ≤ (⟨[5], 1, false, false⟩ : Buffer).Pos ∧
      (⟨[5], 1, false, false⟩ : Buffer).Pos ≤ (NewReader [5]).Data.length) ∧
    ((NewReader [0]).Pos ≤ (⟨[0], 1, false, false⟩ : Buffer).Pos ∧
      (⟨[0], 1, false, false⟩ : Buffer).Pos ≤ (NewReader [0]).Data.length + 1) :=
  ⟨c8_amended_cursor_invariant.2.1 (NewReader [5]) (some 5)
      ⟨[5], 1, false, false⟩ (by decide),
   c8_amended_cursor_invariant.2.2.1 (NewReader [5]) 1 [5]
      ⟨[5], 1, false, false⟩ (by decide),
   c8_amended_cursor_invariant.2.2.2 (NewReader [0]) [] []
      ⟨[0], 1, false, false⟩ (by decide) (by decide)⟩


lemma readUvarintLoop_shape :
    ∀ (f x s : Nat) (buf : Buffer), buf.Pos ≤ buf.Data.length →
    ∃ X err p2, readUvarintLoop f x s buf = (X, err, { buf with Pos := p2 }) ∧
      p2 ≤ buf.Data.length := by
  intro f
  induction f with
  | zero =>
    intro x s buf hp
    exact ⟨x, true, buf.Pos, by rw [readUvarintLoop], hp⟩
  | succ f ih =>
    intro x s buf hp
    rcases hdrop : buf.Data.drop buf.Pos with _ | ⟨c, t⟩
    · refine ⟨x, true, buf.Pos, ?_, hp⟩
      rw [readUvarintLoop, ReadByte_end hdrop]
    · have hlt := drop_eq_cons_lt hdrop
      have hrb := ReadByte_cons hdrop
      by_cases hc : c < 128
      · by_cases hover : f = 0 ∧ c > 1
        · refine ⟨x, true, buf.Pos + 1, ?_, by omega⟩
          rw [readUvarintLoop, hrb]
          simp [hc, hover]
        · refine ⟨(x ||| c <<< s) % 2 ^ 64, false, buf.Pos + 1, ?_, by omega⟩
          rw [readUvarintLoop, hrb]
          simp [hc, hover]
      · obtain ⟨X, err, p2, hX, hp2⟩ := ih ((x ||| (c % 128) <<< s) % 2 ^ 64) (s + 7)
          { buf with Pos := buf.Pos + 1 } (by simp only []; omega)
        have hX2 : readUvarintLoop f ((x ||| (c % 128) <<< s) % 2 ^ 64) (s + 7)
            { buf with Pos := buf.Pos + 1 } = (X, err, { buf with Pos := p2 }) := by
          simpa using hX
        refine ⟨X, err, p2, ?_, by simpa using hp2⟩
        rw [readUvarintLoop, hrb]
        simp only [hc, if_false]
        simpa using hX2

lemma VInt64_read_shape (m : Int) {d : List Nat} {p : Nat} {e : Bool}
    (hp : p ≤ d.length) :
    ∃ v p2 e2, VInt64 m ⟨d, p, e, false⟩ = some (v, ⟨d, p2, e2, false⟩) ∧
      p2 ≤ d.length := by
  obtain ⟨X, err, p2, hX, hp2⟩ := readUvarintLoop_shape 10 0 0 ⟨d, p, e, false⟩ hp
  have hX2 : readUvarintLoop 10 0 0 (⟨d, p, e, false⟩ : Buffer) =
      (X, err, ⟨d, p2, e, false⟩) := by simpa using hX
  refine ⟨if X % 2 ≠ 0 then -((X >>> 1 : Nat) : Int) - 1 else ((X >>> 1 : Nat) : Int),
    p2, if err then true else e, ?_, by simpa using hp2⟩
  unfold VInt64
  rw [if_neg (by simp)]
  unfold ReadVarint ReadUvarint
  rw [hX2]
  cases err <;> simp

lemma BytePack_read_total (d : List Nat) (bt : Nat) :
    ∃ r, BytePack bt (⟨d, 0, false, false⟩ : Buffer) = some r := by
  unfold BytePack
  rw [if_neg (by simp)]
  by_cases hd : 1 ≤ d.length
  · rw [ReadBytes_ok (by omega) (by push_cast; omega)]
    exact ⟨_, rfl⟩
  · rw [ReadBytes_underflow (by push_cast; omega) (by omega)]
    exact ⟨_, rfl⟩

/-- C3 amended: on arbitrary input bytes, the Int (varint), StringZ and
Bool codecs always complete normally through FromBytesInto, reporting any
failure only through the sticky error flag; the String codec completes
normally whenever the length it decodes is non-negative.  (A decoded
negative length makes String/ByteSlice/Slice panic, and a non-positive
version tag makes Versioned panic; see the counterexample.) -/
theorem c3_amended_no_panic :
    (∀ (d : List Nat) (n : Int), FromBytesInto d n IntPack ≠ none) ∧
    (∀ (d s : List Nat), FromBytesInto d s StringZ ≠ none) ∧
    (∀ (d : List Nat) (b : Bool), FromBytesInto d b BoolPack ≠ none) ∧
    (∀ (d s0 : List Nat) (sz : Int) (buf1 : Buffer),
      IntPack (s0.length : Int) (NewReader d) = some (sz, buf1) →
      0 ≤ sz →
      FromBytesInto d s0 StringPack ≠ none) := by
  refine ⟨?_, ?_, ?_, ?_⟩
  · intro d n
    obtain ⟨v, p2, e2, hv, _⟩ := VInt64_read_shape n (d := d) (p := 0)
      (e := false) (by omega)
    unfold FromBytesInto
    rw [show NewReader d = (⟨d, 0, false, false⟩ : Buffer) from rfl,
      show IntPack n (⟨d, 0, false, false⟩ : Buffer) =
        VInt64 n (⟨d, 0, false, false⟩ : Buffer) from rfl, hv]
    simp
  · intro d s
    unfold FromBytesInto StringZ
    rw [if_neg (by simp [NewReader]), if_neg (by simp [NewReader])]
    simp
  · intro d b
    obtain ⟨r, hr⟩ := BytePack_read_total d (if b then 1 else 0)
    simp only [FromBytesInto, BoolPack]
    rw [show NewReader d = (⟨d, 0, false, false⟩ : Buffer) from rfl, hr]
    simp
  · intro d s0 sz buf1 hip hsz
    obtain ⟨v, p2, e2, hv, hp2⟩ := VInt64_read_shape (s0.length : Int) (d := d)
      (p := 0) (e := false) (by omega)
    have hveq : IntPack (s0.length : Int) (NewReader d) =
        some (v, ⟨d, p2, e2, false⟩) := hv
    have hips : some (v, (⟨d, p2, e2, false⟩ : Buffer)) = some (sz, buf1) :=
      hveq.symm.trans hip
    have hvsz : v = sz := by
      have h2 := hips
      simp at h2
      exact h2.1
    have hsz2 : 0 ≤ v := by omega
    simp only [FromBytesInto, StringPack, hveq]
    by_cases hfit : (p2 : Int) + v ≤ (d.length : Int)
    · rw [ReadBytes_ok hsz2 hfit]
      simp
    · rw [ReadBytes_underflow (by omega) (by omega)]
      simp

/-- Witness for C3 amended at concrete inputs: the Int, StringZ and Bool
codecs complete on the arbitrary byte [7], and String completes on [0]
(decoded length 0). -/
theorem c3_witness :
    FromBytesInto [7] (0 : Int) IntPack ≠ none ∧
    FromBytesInto [7] [] StringZ ≠ none ∧
    FromBytesInto [7] false BoolPack ≠ none ∧
    FromBytesInto [0] [] StringPack ≠ none :=
  ⟨c3_amended_no_panic.1 [7] 0,
   c3_amended_no_panic.2.1 [7] [],
   c3_amended_no_panic.2.2.1 [7] false,
   c3_amended_no_panic.2.2.2 [0] [] 0 ⟨[0], 1, false, false⟩ (by decide) (by decide)⟩

/-- C5 amended: version dispatcher semantics.  In write mode, Versioned
writes the varint tag N = len(fns) and invokes the last function.  In read
mode with decoded tag V: if 1 <= V <= N it invokes the function at 1-based
index V and nothing else; if V > N it sets the error flag and invokes no
function; but if V < 1 (reachable from malformed input, e.g. the byte 0x00
decodes V = 0) the source evaluates fns[V-1] with a negative index, which
panics instead of setting the error flag. -/
theorem c5_amended_versioned_dispatch :
    (∀ (T : Type) (fns : List (PackFn T)) (item : T), fns ≠ [] →
      ∃ fn, fns.get? (fns.length - 1) = some fn ∧
        Versioned fns item NewWriter =
          fn item ⟨appendVarint (fns.length : Int), 0, false, true⟩) ∧
    (∀ (T : Type) (fns : List (PackFn T)) (item : T) (d : List Nat)
       (v : Int) (buf1 : Buffer),
      IntPack (fns.length : Int) (NewReader d) = some (v, buf1) →
      ((1 ≤ v → v ≤ (fns.length : Int) →
        ∃ fn, fns.get? (v - 1).toNat = some fn ∧
          Versioned fns item (NewReader d) = fn item buf1) ∧
       (v > (fns.length : Int) →
        Versioned fns item (NewReader d) =
          some (item, { buf1 with Error := true })) ∧
       (v < 1 → Versioned fns item (NewReader d) = none))) := by
  constructor
  · intro T fns item hne
    have hN : 1 ≤ fns.length := List.length_pos.mpr hne
    have hget : ∃ fn, fns.get? (fns.length - 1) = some fn := by
      rcases h : fns.get? (fns.length - 1) with _ | fn
      · rw [List.get?_eq_none] at h
        omega
      · exact ⟨fn, rfl⟩
    obtain ⟨fn, hfn⟩ := hget
    refine ⟨fn, hfn, ?_⟩
    have hip : IntPack (fns.length : Int) NewWriter =
        some ((fns.length : Int),
          ⟨appendVarint (fns.length : Int), 0, false, true⟩) := by
      simp [IntPack, VInt64, NewWriter]
    simp only [Versioned, hip]
    rw [if_pos (le_refl _), if_neg (by omega)]
    have hcast : ((fns.length : Int) - 1).toNat = fns.length - 1 := by omega
    rw [hcast, hfn]
  · intro T fns item d v buf1 hip
    refine ⟨?_, ?_, ?_⟩
    · intro h1 h2
      have hget : ∃ fn, fns.get? (v - 1).toNat = some fn := by
        rcases h : fns.get? (v - 1).toNat with _ | fn
        · rw [List.get?_eq_none] at h
          omega
        · exact ⟨fn, rfl⟩
      obtain ⟨fn, hfn⟩ := hget
      refine ⟨fn, hfn, ?_⟩
      simp only [Versioned, hip]
      rw [if_pos h2, if_neg (by omega), hfn]
    · intro hgt
      simp only [Versioned, hip]
      rw [if_neg (by omega)]
    · intro hlt
      simp only [Versioned, hip]
      rw [if_pos (by omega), if_pos hlt]

/-- Witness for C5 amended with the single version function BoolPack:
writing dispatches to it after writing tag 1; reading tag 2 sets the error
flag; reading tag -1 (byte 0x01) panics. -/
theorem c5_witness :
    Versioned [BoolPack] true NewWriter =
      BoolPack true ⟨appendVarint 1, 0, false, true⟩ ∧
    Versioned [BoolPack] true (NewReader [4]) =
      some (true, ⟨[4], 1, true, false⟩) ∧
    Versioned [BoolPack] true (NewReader [1]) = none := by
  refine ⟨?_, ?_, ?_⟩
  · obtain ⟨fn, hfn, heq⟩ :=
      c5_amended_versioned_dispatch.1 Bool [BoolPack] true (by simp)
    have hfn2 : fn = BoolPack := by
      have h3 := hfn
      simp at h3
      exact h3.symm
    rw [heq, hfn2]
    norm_num
  · have h := (c5_amended_versioned_dispatch.2 Bool [BoolPack] true [4] 2
      ⟨[4], 1, false, false⟩ (by decide)).2.1 (by norm_num)
    simpa using h
  · exact (c5_amended_versioned_dispatch.2 Bool [BoolPack] true [1] (-1)
      ⟨[1], 1, false, false⟩ (by decide)).2.2 (by norm_num)

/-- C9: entry-point error translation.  When the traversal completes,
ToBytes returns nil exactly when the write buffer's error flag was set and
otherwise returns the accumulated bytes; and FromBytes (which allocates the
zero value and delegates to FromBytesInto) returns a populated object
exactly when FromBytesInto on the same bytes and zero value reports true,
in which case the two objects coincide. -/
theorem c9_entry_point_translation {T : Type} (obj dflt o : T) (fn : PackFn T)
    (data : List Nat) (resW : T) (bufW : Buffer)
    (hW : fn obj NewWriter = some (resW, bufW)) :
    ToBytes obj fn = some (if bufW.Error then none else some bufW.Data) ∧
    (FromBytes dflt data fn = some (some o) ↔
      FromBytesInto data dflt fn = some (true, o)) := by
  constructor
  · unfold ToBytes
    rw [hW]
  · unfold FromBytes
    rcases h : FromBytesInto data dflt fn with _ | ⟨ok, o2⟩
    · simp
    · cases ok <;> simp

/-- Witness for C9 with BoolPack at the value true and the input [1]. -/
theorem c9_witness :
    ToBytes true BoolPack =
      some (if (⟨[1], 0, false, true⟩ : Buffer).Error then none
            else some (⟨[1], 0, false, true⟩ : Buffer).Data) ∧
    (FromBytes false [1] BoolPack = some (some true) ↔
      FromBytesInto [1] false BoolPack = some (true, true)) :=
  c9_entry_point_translation true false true BoolPack [1] true
    ⟨[1], 0, false, true⟩ (by decide)

lemma readUvarintLoop_eof {f x s : Nat} {buf : Buffer}
    (h : buf.Data.length ≤ buf.Pos) (hf : 1 ≤ f) :
    readUvarintLoop f x s buf = (x, true, buf) := by
  match f with
  | 0 => omega
  | f + 1 =>
    rw [readUvarintLoop, ReadByte_end (List.drop_eq_nil_of_le h)]

lemma readUvarintLoop_extend :
    ∀ (f x s : Nat) (d e0 : List Nat) (p : Nat) (er w : Bool) (X p2 : Nat),
    readUvarintLoop f x s ⟨d, p, er, w⟩ = (X, false, ⟨d, p2, er, w⟩) →
    readUvarintLoop f x s ⟨d ++ e0, p, er, w⟩ = (X, false, ⟨d ++ e0, p2, er, w⟩) := by
  intro f
  induction f with
  | zero =>
    intro x s d e0 p er w X p2 h
    rw [readUvarintLoop] at h
    exact absurd h (by simp)
  | succ f ih =>
    intro x s d e0 p er w X p2 h
    rcases hdrop : d.drop p with _ | ⟨c, t⟩
    · rw [readUvarintLoop,
        ReadByte_end (b := ⟨d, p, er, w⟩) (by simpa using hdrop)] at h
      exact absurd h (by simp)
    · have hlt : p < d.length := drop_eq_cons_lt hdrop
      have hdrop2 : (d ++ e0).drop p = c :: (t ++ e0) := by
        rw [List.drop_append_of_le_length (by omega), hdrop]
        rfl
      have hrb := ReadByte_cons (b := ⟨d, p, er, w⟩) (c := c) (t := t)
        (by simpa using hdrop)
      have hrb2 := ReadByte_cons (b := ⟨d ++ e0, p, er, w⟩) (c := c) (t := t ++ e0)
        (by simpa using hdrop2)
      rw [readUvarintLoop, hrb] at h
      rw [readUvarintLoop, hrb2]
      by_cases hc : c < 128
      · by_cases hover : f = 0 ∧ c > 1
        · simp only [hc, hover, if_true, if_pos, ite_true] at h ⊢
          exact absurd h (by simp)
        · simp only [hc, hover, if_true, ite_true, ite_false, if_neg hover] at h ⊢
          have hX : (x ||| c <<< s) % 2 ^ 64 = X ∧ p + 1 = p2 := by
            have h2 := h
            simp only [Prod.mk.injEq, Buffer.mk.injEq, and_true, true_and,
              eq_self_iff_true] at h2
            exact ⟨h2.1, h2.2⟩
          rw [hX.1, hX.2]
      · simp only [hc, if_false] at h ⊢
        have h3 : readUvarintLoop f ((x ||| (c % 128) <<< s) % 2 ^ 64) (s + 7)
            (⟨d, p + 1, er, w⟩ : Buffer) = (X, false, ⟨d, p2, er, w⟩) := by
          simpa using h
        have := ih ((x ||| (c % 128) <<< s) % 2 ^ 64) (s + 7) d e0 (p + 1) er w X p2 h3
        simpa using this

lemma VInt64_extend (m : Int) {d : List Nat} {p p2 : Nat} {v : Int}
    (h : VInt64 m ⟨d, p, false, false⟩ = some (v, ⟨d, p2, false, false⟩))
    (e0 : List Nat) :
    VInt64 m ⟨d ++ e0, p, false, false⟩ = some (v, ⟨d ++ e0, p2, false, false⟩) := by
  by_cases hp : p ≤ d.length
  · obtain ⟨X, err, q, hX, hq⟩ := readUvarintLoop_shape 10 0 0 ⟨d, p, false, false⟩ hp
    have hX2 : readUvarintLoop 10 0 0 (⟨d, p, false, false⟩ : Buffer) =
        (X, err, ⟨d, q, false, false⟩) := by simpa using hX
    unfold VInt64 ReadVarint ReadUvarint at h
    rw [if_neg (by simp), hX2] at h
    cases err with
    | true =>
      exfalso
      have h2 := h
      simp at h2
    | false =>
      simp only [Bool.false_eq_true, if_false] at h
      have hveq : (if X % 2 ≠ 0 then -((X >>> 1 : Nat) : Int) - 1
          else ((X >>> 1 : Nat) : Int)) = v ∧ q = p2 := by
        have h2 := h
        simp only [Option.some.injEq, Prod.mk.injEq, Buffer.mk.injEq, and_true,
          true_and, eq_self_iff_true] at h2
        exact ⟨h2.1, h2.2⟩
      have hext := readUvarintLoop_extend 10 0 0 d e0 p false false X q
        (by simpa using hX2)
      unfold VInt64 ReadVarint ReadUvarint
      rw [if_neg (by simp), hext]
      simp only [Bool.false_eq_true, if_false]
      rw [hveq.1, hveq.2]
  · exfalso
    have heof : readUvarintLoop 10 0 0 (⟨d, p, false, false⟩ : Buffer) =
        (0, true, ⟨d, p, false, false⟩) :=
      readUvarintLoop_eof (by simp only []; omega) (by omega)
    unfold VInt64 ReadVarint ReadUvarint at h
    rw [if_neg (by simp), heof] at h
    simp at h

lemma ReadBytes_sticky {b : Buffer} {n : Int} {bs : List Nat} {b2 : Buffer}
    (h : ReadBytes b n = some (bs, b2)) (he : b.Error = true) : b2.Error = true := by
  simp only [ReadBytes] at h
  by_cases h1 : ((b.Pos : Int) + n > (b.Data.length : Int))
  · rw [if_pos h1] at h
    by_cases h2 : b.Pos > b.Data.length
    · rw [if_pos h2] at h
      exact absurd h (by simp)
    · rw [if_neg h2] at h
      have h3 := h
      simp only [Option.some.injEq, Prod.mk.injEq] at h3
      rw [← h3.2]
  · rw [if_neg h1] at h
    by_cases h3 : n < 0
    · rw [if_pos h3] at h
      exact absurd h (by simp)
    · rw [if_neg h3] at h
      have h4 := h
      simp only [Option.some.injEq, Prod.mk.injEq] at h4
      rw [← h4.2]
      exact he

lemma ReadBytes_extend {d : List Nat} {p p2 : Nat} {w : Bool} {n : Int}
    {bs : List Nat}
    (h : ReadBytes ⟨d, p, false, w⟩ n = some (bs, ⟨d, p2, false, w⟩))
    (e0 : List Nat) :
    ReadBytes ⟨d ++ e0, p, false, w⟩ n = some (bs, ⟨d ++ e0, p2, false, w⟩) := by
  simp only [ReadBytes] at h
  by_cases h1 : ((p : Int) + n > (d.length : Int))
  · rw [if_pos (by simpa using h1)] at h
    by_cases h2 : p > d.length
    · rw [if_pos (by simpa using h2)] at h
      exact absurd h (by simp)
    · rw [if_neg (by simpa using h2)] at h
      exfalso
      have h3 := h
      simp at h3
  · rw [if_neg (by simpa using h1)] at h
    by_cases h3 : n < 0
    · rw [if_pos h3] at h
      exact absurd h (by simp)
    · rw [if_neg h3] at h
      have h4 := h
      simp only [Option.some.injEq, Prod.mk.injEq, Buffer.mk.injEq, and_true,
        true_and, eq_self_iff_true] at h4
      have hbs : (d.drop p).take n.toNat = bs := h4.1
      have hp2 : p + n.toNat = p2 := h4.2
      have hple : p ≤ d.length := by omega
      have hnfit : n.toNat ≤ (d.drop p).length := by
        simp only [List.length_drop]
        omega
      rw [ReadBytes_ok (by omega)
        (by simp only [List.length_append]; push_cast; omega)]
      rw [List.drop_append_of_le_length hple, List.take_append_of_le_length hnfit]
      rw [hbs, hp2]

lemma takeWhile_append_left {q : Nat → Bool} :
    ∀ (l1 l2 : List Nat), (l1.takeWhile q).length < l1.length →
    (l1 ++ l2).takeWhile q = l1.takeWhile q := by
  intro l1
  induction l1 with
  | nil => intro l2 h; simp at h
  | cons a t ih =>
    intro l2 h
    by_cases ha : q a = true
    · simp only [List.takeWhile_cons, ha, if_true, List.cons_append, ite_true,
        List.length_cons] at h ⊢
      rw [ih l2 (by omega)]
    · simp [List.takeWhile_cons, ha]

lemma StringZ_read_eq (d : List Nat) (p : Nat) (e : Bool) (s : List Nat)
    (hp : p ≤ d.length) :
    StringZ s ⟨d, p, e, false⟩ =
      some ((d.drop p).takeWhile (fun b => b != 0),
        ⟨d, p + ((d.drop p).takeWhile (fun b => b != 0)).length + 1, e, false⟩) := by
  unfold StringZ
  rw [if_neg (by simp), if_neg (by show ¬(p > d.length); omega)]

lemma readStable_StringZ : ReadStable StringZ := by
  intro d p t t' p' h hplen e0
  by_cases hp : p ≤ d.length
  · rw [StringZ_read_eq d p false t hp] at h
    have h2 := h
    simp only [Option.some.injEq, Prod.mk.injEq, Buffer.mk.injEq, and_true,
      true_and, eq_self_iff_true] at h2
    obtain ⟨ht, hpe⟩ := h2
    have hsub := (List.takeWhile_sublist (fun b => b != 0) (l := d.drop p)).length_le
    have hlt : ((d.drop p).takeWhile (fun b => b != 0)).length <
        (d.drop p).length := by
      simp only [List.length_drop] at *
      omega
    rw [StringZ_read_eq (d ++ e0) p false t (by simp only [List.length_append]; omega)]
    rw [List.drop_append_of_le_length hp, takeWhile_append_left _ _ hlt]
    rw [hpe, ht]
  · exfalso
    unfold StringZ at h
    rw [if_neg (by simp), if_pos (by show p > d.length; omega)] at h
    exact absurd h (by simp)

lemma readStable_IntPack : ReadStable IntPack :=
  fun _ _ t _ _ h _ e0 => VInt64_extend t h e0

lemma readStable_UnixTime : ReadStable UnixTime := by
  intro d p t t' p' h hplen e0
  simp only [UnixTime, Bool.false_eq_true, if_false] at h ⊢
  rcases hv : VInt64 0 (⟨d, p, false, false⟩ : Buffer) with _ | ⟨s1, b1⟩
  · rw [hv] at h
    exact absurd h (by simp)
  · rw [hv] at h
    have h2 := h
    simp only [Option.some.injEq, Prod.mk.injEq] at h2
    obtain ⟨hval, hbuf⟩ := h2
    subst hbuf
    rw [VInt64_extend 0 hv e0]
    simp [hval]

lemma readStable_BoolPack : ReadStable BoolPack := by
  intro d p t t' p' h hplen e0
  simp only [BoolPack, BytePack, Bool.false_eq_true, if_false] at h ⊢
  rcases hrb : ReadBytes (⟨d, p, false, false⟩ : Buffer) 1 with _ | ⟨slice, b1⟩
  · rw [hrb] at h
    exact absurd h (by simp)
  · rw [hrb] at h
    simp only [Option.some.injEq, Prod.mk.injEq] at h
    obtain ⟨hval, hbuf⟩ := h
    subst hbuf
    rw [ReadBytes_extend hrb e0]
    simp only [Option.some.injEq, Prod.mk.injEq, and_true, true_and,
      eq_self_iff_true, Buffer.mk.injEq]
    simpa using hval

lemma readStable_StringPack : ReadStable StringPack := by
  intro d p t t' p' h hplen e0
  by_cases hp : p ≤ d.length
  · obtain ⟨v, q, e2, hv, hq⟩ := VInt64_read_shape ((t.length : Nat) : Int)
      (d := d) (p := p) (e := false) hp
    simp only [StringPack] at h ⊢
    have hvI : IntPack (t.length : Int) (⟨d, p, false, false⟩ : Buffer) =
        some (v, ⟨d, q, e2, false⟩) := hv
    rw [hvI] at h
    simp only [Bool.false_eq_true, if_false] at h
    rcases hrb : ReadBytes (⟨d, q, e2, false⟩ : Buffer) v with _ | ⟨bs, b2⟩
    · rw [hrb] at h
      exact absurd h (by simp)
    · rw [hrb] at h
      simp only [Option.some.injEq, Prod.mk.injEq] at h
      obtain ⟨hbs, hb2⟩ := h
      subst hb2
      cases e2 with
      | true =>
        exfalso
        have := ReadBytes_sticky hrb rfl
        simp at this
      | false =>
        have hvext := VInt64_extend (t.length : Int) hv e0
        rw [show IntPack (t.length : Int) (⟨d ++ e0, p, false, false⟩ : Buffer) =
          VInt64 (t.length : Int) (⟨d ++ e0, p, false, false⟩ : Buffer) from rfl,
          hvext]
        simp only [Bool.false_eq_true, if_false]
        rw [ReadBytes_extend hrb e0, hbs]
  · exfalso
    have heof : readUvarintLoop 10 0 0 (⟨d, p, false, false⟩ : Buffer) =
        (0, true, ⟨d, p, false, false⟩) :=
      readUvarintLoop_eof (by show d.length ≤ p; omega) (by omega)
    have hv : VInt64 ((t.length : Nat) : Int) (⟨d, p, false, false⟩ : Buffer) =
        some (0, ⟨d, p, true, false⟩) := by
      unfold VInt64 ReadVarint ReadUvarint
      rw [if_neg (by simp), heof]
      simp
    simp only [StringPack] at h
    rw [show IntPack (t.length : Int) (⟨d, p, false, false⟩ : Buffer) =
      VInt64 (t.length : Int) (⟨d, p, false, false⟩ : Buffer) from rfl, hv] at h
    simp only [Bool.false_eq_true, if_false] at h
    rw [show ReadBytes (⟨d, p, true, false⟩ : Buffer) 0 = none from by
      simp only [ReadBytes]
      rw [if_pos (by omega), if_pos (by show p > d.length; omega)]] at h
    exact absurd h (by simp)

/-- C10 amended: trailing input bytes are ignored for read-stable codecs.
The provided codecs Int, String, StringZ, Bool and UnixTime are read-stable
(their reads are insensitive to appended bytes as long as decoding
completes without error and the cursor stays within the data), and for any
read-stable traversal whose decode of the input succeeds with the cursor
within bounds, FromBytesInto on the input with arbitrary extra bytes
appended still reports success with the same populated object.  Success
depends only on the sticky error flag; the entry points never consult the
cursor or ReadingDone.  When a StringZ scan reaches end-of-buffer the
cursor bound is violated, and trailing bytes can change the decoded object
(see the counterexample). -/
theorem c10_amended_trailing_bytes :
    ReadStable IntPack ∧ ReadStable StringPack ∧ ReadStable StringZ ∧
    ReadStable BoolPack ∧ ReadStable UnixTime ∧
    (∀ (T : Type) (fn : PackFn T), ReadStable fn →
      ∀ (dt e0 : List Nat) (obj t' : T) (p' : Nat),
      fn obj (NewReader dt) = some (t', ⟨dt, p', false, false⟩) →
      p' ≤ dt.length →
      FromBytesInto dt obj fn = some (true, t') ∧
      FromBytesInto (dt ++ e0) obj fn = some (true, t')) := by
  refine ⟨readStable_IntPack, readStable_StringPack, readStable_StringZ,
    readStable_BoolPack, readStable_UnixTime, ?_⟩
  intro T fn hst dt e0 obj t' p' h hp
  have hext := hst dt 0 obj t' p' (by simpa [NewReader] using h) hp e0
  constructor
  · unfold FromBytesInto
    rw [h]
    simp
  · unfold FromBytesInto
    rw [show NewReader (dt ++ e0) = (⟨dt ++ e0, 0, false, false⟩ : Buffer) from rfl,
      hext]
    simp

/-- Witness for C10 amended with BoolPack on input [1]: appending the extra
byte 9 leaves the decoded value and the success flag unchanged. -/
theorem c10_witness :
    FromBytesInto [1] false BoolPack = some (true, true) ∧
    FromBytesInto ([1] ++ [9]) false BoolPack = some (true, true) :=
  c10_amended_trailing_bytes.2.2.2.2.2 Bool BoolPack
    c10_amended_trailing_bytes.2.2.2.1 [1] [9] false true 1 (by decide) (by decide)
